import Mathlib

/-! nix-lets-go: a verification development of `main.go`

`main.go` resolves the latest output path of a Hydra job, looks up the narinfo of
that store path, opens the NAR behind it through a decompressor and walks the
entry headers of the NAR until one whose final path segment equals the wanted
name is found; a regular file is then copied to the output file.

The program is embedded shallowly.  Every call into a library or onto the network
(`http`, `json`, `libstore`, `narinfo`, `xz`, `bzip2`, `nar`, `os`) is an outcome
supplied by a `World`; the control flow of `getLatestOutputPath` and `main`, and
the string computations of `main`, are transcribed from the source.

Go strings are modelled as `List Char`; the separators the program splits on are
the single ASCII characters `/` and `-`.
-/

namespace NixLetsGo

/-! ## Go strings -/

/-- A Go `string`. -/
abbrev GoString := List Char

/-- A byte of file content. -/
abbrev Byte := Nat

/-- The function `strings.Split(s, sep)` for a separator of one character: the
pieces of `s` between the occurrences of `sep`; never the empty list. -/
def stringsSplit (sep : Char) : GoString → List GoString
  | [] => [[]]
  | c :: cs =>
    if c = sep then [] :: stringsSplit sep cs
    else
      match stringsSplit sep cs with
      | [] => [[c]]
      | piece :: pieces => (c :: piece) :: pieces

/-- The function `strings.Join(elems, sep)`. -/
def stringsJoin (elems : List GoString) (sep : GoString) : GoString :=
  match elems with
  | [] => []
  | [e] => e
  | e :: rest => e ++ sep ++ stringsJoin rest sep

/-- The function `strings.TrimPrefix(s, pre)`: `s` without the leading `pre`, or
`s` itself when it does not start with `pre`. -/
def stringsTrimPrefix (s pre : GoString) : GoString :=
  if pre.isPrefixOf s then s.drop pre.length else s

/-- The function `strings.TrimRight(s, cutset)` for a cutset of one character:
`s` without its trailing run of that character. -/
def stringsTrimRight (s : GoString) (cut : Char) : GoString :=
  (s.reverse.dropWhile (fun c => c == cut)).reverse

/-- The mount path removed from a store path. -/
def storePrefix : GoString := "/nix/store/".toList

/-! ## Data model -/

/-- A Go `error` value that is not nil: `io.EOF`, or any other error with its
message. -/
inductive GoErr
  | eof
  | msg (text : GoString)
  deriving DecidableEq, Repr

/-- The type `nar.NodeType` of an entry. -/
inductive NodeType
  | regular
  | directory
  | symlink
  deriving DecidableEq, Repr

/-- The struct `nar.Header`, the fields a reader fills in for one entry; `Typ` is
the field `Type`. -/
structure Header where
  Path : GoString
  Typ : NodeType
  Size : Nat
  LinkTarget : GoString
  Executable : Bool
  deriving DecidableEq, Repr

/-- One entry of the NAR as the reader delivers it: the header returned by `Next`,
and the content bytes `Read` can deliver for it before the stream ends or fails
(fewer than `hdr.Size` when the archive is truncated). -/
structure Entry where
  hdr : Header
  content : List Byte
  deriving DecidableEq, Repr

/-- The struct `HydraOutput`. -/
structure HydraOutput where
  Path : GoString
  deriving DecidableEq, Repr

/-- The struct `HydraBuildOutputs`. -/
structure HydraBuildOutputs where
  Out : HydraOutput
  deriving DecidableEq, Repr

/-- The struct `HydraJob`. -/
structure HydraJob where
  BuildOutputs : HydraBuildOutputs
  deriving DecidableEq, Repr

/-- The fields of `narinfo.NarInfo` that `main` reads. -/
structure NarInfo where
  URL : GoString
  Compression : GoString
  deriving DecidableEq, Repr

/-- The reader `r` handed to `nar.NewReader`: the fetched file itself, or a
decompressor around it. -/
inductive Reader
  | file
  | xz
  | bzip2
  deriving DecidableEq, Repr

/-- The outcomes of every call that leaves the program, fixed for one run. -/
structure World where
  /-- The error of `http.NewRequest` for a URL, `none` for nil. -/
  newRequest : GoString → Option GoErr
  /-- The error of `hydraClient.Do`, `none` for nil. -/
  clientDo : GoString → Option GoErr
  /-- The result of `ioutil.ReadAll(res.Body)`. -/
  readAll : Except GoErr (List Byte)
  /-- The result of `json.Unmarshal` on a body. -/
  jsonUnmarshal : List Byte → Except GoErr HydraJob
  /-- The result of `getNarInfo` for a key. -/
  getNarInfo : GoString → Except GoErr NarInfo
  /-- The error of `nixCache.GetFile` for a path, `none` for nil. -/
  getFile : GoString → Option GoErr
  /-- The error of `xz.NewReader`, `none` for nil. -/
  xzNewReader : Option GoErr
  /-- The error of `nar.NewReader`, `none` for nil. -/
  narNewReader : Option GoErr
  /-- The entries `narReader.Next` returns with a nil error, in order. -/
  entries : List Entry
  /-- The error `narReader.Next` returns, with a nil header, once the entries are
  used up: `io.EOF` at the end of the archive, another error for a broken one. -/
  final : GoErr
  /-- The error of `os.Create` for a file name, `none` for nil. -/
  create : GoString → Option GoErr
  /-- The number of bytes the output file accepts before a write fails, `none`
  when no write fails. -/
  writeCap : Option Nat
  /-- The error of `f.Sync`, `none` for nil. -/
  syncErr : Option GoErr

/-- The call site of a `log.Fatal(err)`. -/
inductive Site
  | resolve
  | narinfo
  | getFile
  | xz
  | narReader
  | next
  | create
  deriving DecidableEq, Repr

/-- How a run of `main` ends. -/
inductive Exit
  /-- The call `log.Fatal(err)` at one of its sites. -/
  | fatal (site : Site) (err : GoErr)
  /-- The call `log.Fatal("file not found")`. -/
  | fatalNotFound
  /-- The call `log.Fatal(fmt.Sprintf("compression %s not handled", ...))`. -/
  | fatalCompression (label : GoString)
  /-- The call `log.Fatal(fmt.Sprintf("BUG: unknown NAR header type: %s", hdr.Type))`. -/
  | fatalUnknownType (hdr : Header)
  /-- The normal return after `fmt.Println("Wrote", hdr.Path, "to", outputFile)`. -/
  | wrote (hdr : Header)
  /-- The runtime panic of reading `hdr.Path` through a nil `hdr`. -/
  | nilDeref
  /-- No return: the loop goes on with a reader that has nothing more to give. -/
  | hang
  deriving DecidableEq, Repr

/-- What a run of `main` leaves behind. -/
structure Run where
  exit : Exit
  /-- The header for which `path[len(path)-1] == newPath` held, if one did. -/
  matched : Option Header
  /-- The output file: `none` when `os.Create` never succeeded, otherwise the
  bytes written to it. -/
  sink : Option (List Byte)
  /-- The number of calls of `narReader.Next`. -/
  nextCalls : Nat
  /-- The number of content bytes read from `narReader`. -/
  contentRead : Nat
  /-- Whether `nar.NewReader` was called. -/
  narReaderCalled : Bool
  deriving DecidableEq, Repr

/-- A run that ends before `nar.NewReader` is reached. -/
def Run.early (exit : Exit) : Run :=
  { exit := exit, matched := none, sink := none, nextCalls := 0, contentRead := 0, narReaderCalled := false }

/-! ## `getLatestOutputPath` -/

/-- The function `getLatestOutputPath`: the returned path and the returned error
(`none` for nil). -/
def getLatestOutputPath (w : World) (hydraJob : GoString) : GoString × Option GoErr :=
  let url := "https://hydra.nixos.org/job/".toList ++ hydraJob ++ "/latest".toList
  let err := w.newRequest url
  if err.isSome then ([], err) else
  let err := w.clientDo url
  if err.isSome then ([], err) else
  match w.readAll with
  | .error _readErr => ([], err)
  | .ok body =>
    match w.jsonUnmarshal body with
    | .error err => ([], some err)
    | .ok job =>
      if job.BuildOutputs.Out.Path = [] then
        ([], some (.msg ("Couldn't find a valid store path for job: ".toList ++ hydraJob)))
      else (job.BuildOutputs.Out.Path, none)

/-! ## `main` -/

/-- The slice `components` of `main`: the store path without the mount path and
without trailing slashes, split at `/`. -/
def components (storePath : GoString) : List GoString :=
  let path := stringsTrimPrefix storePath storePrefix
  let path := stringsTrimRight path '/'
  stringsSplit '/' path

/-- The variable `storeHash` of `main`: `strings.Split(components[0], "-")[0]`. -/
def storeHash (storePath : GoString) : GoString :=
  (stringsSplit '-' ((components storePath).headD [])).headD []

/-- The variable `newPath` of `main`:
`strings.Join(strings.Split(components[0], "-")[1:], "-")`. -/
def newPath (storePath : GoString) : GoString :=
  stringsJoin ((stringsSplit '-' ((components storePath).headD [])).drop 1) "-".toList

/-- The switch on `narinfo.Compression` in `main`: the reader that goes on to
`nar.NewReader`, or the exit of the run. -/
def selectCodec (w : World) (compression : GoString) : Except Exit Reader :=
  if compression = "xz".toList then
    match w.xzNewReader with
    | some err => .error (.fatal .xz err)
    | none => .ok .xz
  else if compression = "bzip2".toList then .ok .bzip2
  else .error (.fatalCompression compression)

/-- The call `io.CopyN(f, narReader, n)`: at most `n` bytes of the entry's content
are read from the reader, and what the file accepts of them is written.  The
bytes in the file and the number of bytes read; `main` drops the call's results. -/
def ioCopyN (w : World) (content : List Byte) (n : Nat) : List Byte × Nat :=
  let got := content.take n
  match w.writeCap with
  | none => (got, got.length)
  | some cap => (got.take cap, got.length)

/-- The element `path[len(path)-1]` of `path := strings.Split(hdrPath, "/")`. -/
def lastSegment (hdrPath : GoString) : GoString :=
  (stringsSplit '/' hdrPath).getLastD []

/-- The result of one pass through the body of the loop of `main`. -/
inductive Step
  /-- The run ends: its exit, the header the comparison with the target held for
  (if it held), the output file and the number of content bytes read. -/
  | stop (exit : Exit) (matched : Option Header) (sink : Option (List Byte)) (read : Nat)
  /-- The loop goes round again. -/
  | again
  deriving DecidableEq, Repr

/-- The body of the loop of `main` for one result `(hdr, err)` of
`narReader.Next`, `content` being what the reader can deliver for the entry. -/
def iteration (w : World) (outputFile target : GoString)
    (hdr : Option Header) (err : Option GoErr) (content : List Byte) : Step :=
  -- fmt.Println("Iterating on ", hdr.Path)
  match hdr with
  | none => .stop .nilDeref none none 0
  | some hdr =>
    match err with
    | some err =>
      if err = .eof then .stop .fatalNotFound none none 0
      else .stop (.fatal .next err) none none 0
    | none =>
      if lastSegment hdr.Path = target then
        match hdr.Typ with
        | .regular =>
          match w.create outputFile with
          | some err => .stop (.fatal .create err) (some hdr) none 0
          | none =>
            let copied := ioCopyN w content hdr.Size
            let _ := w.syncErr
            .stop (.wrote hdr) (some hdr) (some copied.1) copied.2
        | _ => .stop (.fatalUnknownType hdr) (some hdr) none 0
      else .again

/-- The loop of `main` over what is left of the reader's entries, `calls` being
the number of calls of `Next` made so far. -/
def extractLoop (w : World) (outputFile target : GoString) (final : GoErr) :
    List Entry → Nat → Run
  | [], calls =>
    match iteration w outputFile target none (some final) [] with
    | .stop exit matched sink read => ⟨exit, matched, sink, calls + 1, read, true⟩
    | .again => ⟨.hang, none, none, calls + 1, 0, true⟩
  | e :: rest, calls =>
    match iteration w outputFile target (some e.hdr) none e.content with
    | .stop exit matched sink read => ⟨exit, matched, sink, calls + 1, read, true⟩
    | .again => extractLoop w outputFile target final rest (calls + 1)

/-- The function `main` with `os.Args[1]` and `os.Args[2]`. -/
def main (w : World) (hydraJob outputFile : GoString) : Run :=
  match getLatestOutputPath w hydraJob with
  | (_, some err) => Run.early (.fatal .resolve err)
  | (storePath, none) =>
    match w.getNarInfo (storeHash storePath) with
    | .error err => Run.early (.fatal .narinfo err)
    | .ok narinfo =>
      match w.getFile narinfo.URL with
      | some err => Run.early (.fatal .getFile err)
      | none =>
        match selectCodec w narinfo.Compression with
        | .error exit => Run.early exit
        | .ok _r =>
          match w.narNewReader with
          | some err => { Run.early (.fatal .narReader err) with narReaderCalled := true }
          | none => extractLoop w outputFile (newPath storePath) w.final w.entries 0

/-! ## Concrete runs -/

/-- A header with the given path, type and size. -/
def mkHeader (path : String) (typ : NodeType) (size : Nat) : Header :=
  { Path := path.toList, Typ := typ, Size := size, LinkTarget := [], Executable := false }

/-- A world in which every call succeeds: Hydra answers with `storePath`, the
narinfo names the codec `compression`, and the NAR holds `entries`. -/
def calmWorld (storePath compression : String) (entries : List Entry) : World :=
  { newRequest := fun _ => none
    clientDo := fun _ => none
    readAll := .ok []
    jsonUnmarshal := fun _ => .ok ⟨⟨⟨storePath.toList⟩⟩⟩
    getNarInfo := fun _ => .ok ⟨"nar/0.nar".toList, compression.toList⟩
    getFile := fun _ => none
    xzNewReader := none
    narNewReader := none
    entries := entries
    final := .eof
    create := fun _ => none
    writeCap := none
    syncErr := none }

/-- The bytes of "hello". -/
def helloBytes : List Byte := [104, 101, 108, 108, 111]

/-- The entries of an archive that holds the file `a/b.txt` with content "hello". -/
def scenarioA : List Entry :=
  [⟨mkHeader "" .directory 0, []⟩, ⟨mkHeader "a" .directory 0, []⟩,
   ⟨mkHeader "a/b.txt" .regular 5, helloBytes⟩]

/-- The entries of an archive that holds directories only. -/
def scenarioB : List Entry :=
  [⟨mkHeader "" .directory 0, []⟩, ⟨mkHeader "a" .directory 0, []⟩,
   ⟨mkHeader "a/c" .directory 0, []⟩]

/-- The entries of an archive with a file named `T` in each of two directories. -/
def twoNamesakes : List Entry :=
  [⟨mkHeader "x/T" .regular 1, [120]⟩, ⟨mkHeader "y/T" .regular 1, [121]⟩]

/-- The entries of an archive whose file `a/b.txt` is a symlink, followed by a
regular file of the same name. -/
def symlinkFirst : List Entry :=
  [⟨mkHeader "a" .directory 0, []⟩, ⟨mkHeader "a/b.txt" .symlink 0, []⟩,
   ⟨mkHeader "c/b.txt" .regular 5, helloBytes⟩]

/-- The entries of an archive cut off after three of the five content bytes of
its file `b.txt`. -/
def truncatedFile : List Entry :=
  [⟨mkHeader "b.txt" .regular 5, [104, 101, 108]⟩]

/-- The entries of an archive whose directory `/b.txt` holds the file `b.txt`. -/
def dirNamesake : List Entry :=
  [⟨mkHeader "/" .directory 0, []⟩, ⟨mkHeader "/b.txt" .directory 0, []⟩,
   ⟨mkHeader "/b.txt/b.txt" .regular 5, helloBytes⟩]

/-! ## The loop of `main` -/

/-- Entries whose final path segment differs from the target are passed over,
one call of `Next` each. -/
theorem extractLoop_skip (w : World) (outputFile target : GoString) (final : GoErr)
    (pre rest : List Entry) (calls : Nat)
    (hpre : ∀ x ∈ pre, lastSegment x.hdr.Path ≠ target) :
    extractLoop w outputFile target final (pre ++ rest) calls
      = extractLoop w outputFile target final rest (calls + pre.length) := by
  induction pre generalizing calls with
  | nil => simp
  | cons x xs ih =>
    have hx : lastSegment x.hdr.Path ≠ target := hpre x (List.mem_cons_self _ _)
    have hxs : ∀ y ∈ xs, lastSegment y.hdr.Path ≠ target :=
      fun y hy => hpre y (List.mem_cons_of_mem _ hy)
    have step : extractLoop w outputFile target final (x :: (xs ++ rest)) calls
        = extractLoop w outputFile target final (xs ++ rest) (calls + 1) := by
      simp only [extractLoop, iteration, if_neg hx]
    rw [List.cons_append, step, ih (calls + 1) hxs, List.length_cons]
    congr 1
    omega

/-- At the end of the entries the loop reads `hdr.Path` through the nil header. -/
theorem extractLoop_nil (w : World) (outputFile target : GoString) (final : GoErr)
    (calls : Nat) :
    extractLoop w outputFile target final [] calls
      = ⟨.nilDeref, none, none, calls + 1, 0, true⟩ := by
  simp [extractLoop, iteration]

/-- On a regular file whose final path segment is the target, the loop creates
the output file, copies and returns. -/
theorem extractLoop_regular (w : World) (outputFile target : GoString) (final : GoErr)
    (e : Entry) (post : List Entry) (calls : Nat)
    (hm : lastSegment e.hdr.Path = target) (hreg : e.hdr.Typ = .regular) :
    extractLoop w outputFile target final (e :: post) calls
      = match w.create outputFile with
        | some err => ⟨.fatal .create err, some e.hdr, none, calls + 1, 0, true⟩
        | none => ⟨.wrote e.hdr, some e.hdr, some (ioCopyN w e.content e.hdr.Size).1,
            calls + 1, (ioCopyN w e.content e.hdr.Size).2, true⟩ := by
  simp only [extractLoop, iteration, if_pos hm, hreg]
  cases w.create outputFile <;> rfl

/-- On an entry that is no regular file and whose final path segment is the
target, the loop ends the run with the unknown-type message. -/
theorem extractLoop_other (w : World) (outputFile target : GoString) (final : GoErr)
    (e : Entry) (post : List Entry) (calls : Nat)
    (hm : lastSegment e.hdr.Path = target) (hreg : e.hdr.Typ ≠ .regular) :
    extractLoop w outputFile target final (e :: post) calls
      = ⟨.fatalUnknownType e.hdr, some e.hdr, none, calls + 1, 0, true⟩ := by
  cases h : e.hdr.Typ with
  | regular => exact absurd h hreg
  | directory => simp only [extractLoop, iteration, if_pos hm, h]
  | symlink => simp only [extractLoop, iteration, if_pos hm, h]

/-- The number of content bytes `io.CopyN` reads is at most `n`. -/
theorem ioCopyN_read_le (w : World) (content : List Byte) (n : Nat) :
    (ioCopyN w content n).2 ≤ n := by
  unfold ioCopyN
  cases w.writeCap <;> simp [List.length_take]

/-- The bytes `io.CopyN` leaves in the file are a prefix of the content. -/
theorem ioCopyN_written_prefix (w : World) (content : List Byte) (n : Nat) :
    (ioCopyN w content n).1 <+: content := by
  unfold ioCopyN
  cases w.writeCap with
  | none => exact List.take_prefix _ _
  | some cap => exact (List.take_prefix _ _).trans (List.take_prefix _ _)

/-- The first entry whose final path segment is the target is the matched one,
and the loop has then called `Next` once for it and for each entry before it. -/
theorem extractLoop_first_hit (w : World) (outputFile target : GoString) (final : GoErr)
    (pre : List Entry) (e : Entry) (post : List Entry) (calls : Nat)
    (hpre : ∀ x ∈ pre, lastSegment x.hdr.Path ≠ target)
    (hm : lastSegment e.hdr.Path = target) :
    (extractLoop w outputFile target final (pre ++ e :: post) calls).matched = some e.hdr
    ∧ (extractLoop w outputFile target final (pre ++ e :: post) calls).nextCalls
        = calls + pre.length + 1 := by
  rw [extractLoop_skip w outputFile target final pre (e :: post) calls hpre]
  by_cases hreg : e.hdr.Typ = .regular
  · rw [extractLoop_regular w outputFile target final e post _ hm hreg]
    cases w.create outputFile <;> simp
  · rw [extractLoop_other w outputFile target final e post _ hm hreg]
    simp

/-- When no entry has the target as its final path segment, the loop comes to the
end of the entries and reads `hdr.Path` through the nil header. -/
theorem extractLoop_no_hit (w : World) (outputFile target : GoString) (final : GoErr)
    (entries : List Entry) (calls : Nat)
    (hno : ∀ x ∈ entries, lastSegment x.hdr.Path ≠ target) :
    extractLoop w outputFile target final entries calls
      = ⟨.nilDeref, none, none, calls + entries.length + 1, 0, true⟩ := by
  have h := extractLoop_skip w outputFile target final entries [] calls hno
  rw [List.append_nil] at h
  rw [h, extractLoop_nil]

/-- A list of entries either has no entry with the target as its final path
segment, or splits at the first such entry. -/
theorem split_at_first_hit (target : GoString) (entries : List Entry) :
    (∀ x ∈ entries, lastSegment x.hdr.Path ≠ target)
    ∨ ∃ pre e post, entries = pre ++ e :: post
        ∧ (∀ x ∈ pre, lastSegment x.hdr.Path ≠ target)
        ∧ lastSegment e.hdr.Path = target := by
  induction entries with
  | nil => exact Or.inl (by simp)
  | cons x xs ih =>
    by_cases hx : lastSegment x.hdr.Path = target
    · exact Or.inr ⟨[], x, xs, rfl, by simp, hx⟩
    · rcases ih with hno | ⟨pre, e, post, hsplit, hpre, hm⟩
      · refine Or.inl ?_
        intro y hy
        rcases List.mem_cons.mp hy with rfl | hy
        · exact hx
        · exact hno y hy
      · refine Or.inr ⟨x :: pre, e, post, by rw [hsplit, List.cons_append], ?_, hm⟩
        intro y hy
        rcases List.mem_cons.mp hy with rfl | hy
        · exact hx
        · exact hpre y hy

/-! ## Claims about the loop of `main` -/

/-- C1 (as stated, refuted): with the entries `x/T` and `y/T` and the target `T`,
the loop matches `x/T`, whose full path is not the target; with the two entries in
the other order it matches `y/T`.  Both entries are candidates for the target. -/
theorem namesakes_both_match :
    (extractLoop (calmWorld "" "xz" []) "out".toList "T".toList .eof twoNamesakes 0).matched
        = some (mkHeader "x/T" .regular 1)
    ∧ (mkHeader "x/T" .regular 1).Path ≠ "T".toList
    ∧ (extractLoop (calmWorld "" "xz" []) "out".toList "T".toList .eof
          twoNamesakes.reverse 0).matched
        = some (mkHeader "y/T" .regular 1)
    ∧ (mkHeader "y/T" .regular 1).Path ≠ "T".toList := by
  decide

/-- C1 (amended): the loop matches a header exactly when it is the header of the
first entry whose final `/`-separated path segment equals the target; the
segments before the final one play no part. -/
theorem matched_iff_first_with_last_segment (w : World) (outputFile target : GoString)
    (final : GoErr) (entries : List Entry) (h : Header) :
    (extractLoop w outputFile target final entries 0).matched = some h
      ↔ ∃ pre e post, entries = pre ++ e :: post ∧ e.hdr = h
          ∧ lastSegment h.Path = target
          ∧ ∀ x ∈ pre, lastSegment x.hdr.Path ≠ target := by
  constructor
  · intro hsel
    rcases split_at_first_hit target entries with hno | ⟨pre, e, post, hsplit, hpre, hm⟩
    · rw [extractLoop_no_hit w outputFile target final entries 0 hno] at hsel
      simp at hsel
    · subst hsplit
      have hhit := (extractLoop_first_hit w outputFile target final pre e post 0 hpre hm).1
      rw [hhit] at hsel
      have he : e.hdr = h := Option.some.inj hsel
      exact ⟨pre, e, post, rfl, he, he ▸ hm, hpre⟩
  · rintro ⟨pre, e, post, hsplit, he, hm, hpre⟩
    subst hsplit
    rw [← he] at hm
    rw [(extractLoop_first_hit w outputFile target final pre e post 0 hpre hm).1, he]

/-- C2: when the first entry whose final path segment is the target is a regular
file of declared size `n` with content `c`, `|c| = n`, and the output file can
be created and takes `n` bytes, the run ends in the normal return after "Wrote"
and the output file holds exactly `c`. -/
theorem first_match_regular_is_copied (w : World) (outputFile target : GoString)
    (final : GoErr) (pre : List Entry) (e : Entry) (post : List Entry)
    (hpre : ∀ x ∈ pre, lastSegment x.hdr.Path ≠ target)
    (hm : lastSegment e.hdr.Path = target)
    (hreg : e.hdr.Typ = .regular)
    (hlen : e.content.length = e.hdr.Size)
    (hcreate : w.create outputFile = none)
    (hcap : ∀ cap, w.writeCap = some cap → e.hdr.Size ≤ cap) :
    (extractLoop w outputFile target final (pre ++ e :: post) 0).exit = .wrote e.hdr
    ∧ (extractLoop w outputFile target final (pre ++ e :: post) 0).sink = some e.content := by
  rw [extractLoop_skip w outputFile target final pre (e :: post) 0 hpre,
    extractLoop_regular w outputFile target final e post _ hm hreg, hcreate]
  refine ⟨rfl, ?_⟩
  show some (ioCopyN w e.content e.hdr.Size).1 = some e.content
  unfold ioCopyN
  cases hw : w.writeCap with
  | none => simp [← hlen]
  | some cap =>
    have hle := hcap cap hw
    simp only [Option.some.injEq]
    rw [← hlen, List.take_length, List.take_of_length_le (by omega)]

/-- C2 (witness): the archive holding `a/b.txt` = "hello", asked for `b.txt`,
yields the five bytes of "hello". -/
theorem first_match_regular_is_copied_witness :
    (extractLoop (calmWorld "" "xz" []) "out".toList "b.txt".toList .eof scenarioA 0).exit
        = .wrote (mkHeader "a/b.txt" .regular 5)
    ∧ (extractLoop (calmWorld "" "xz" []) "out".toList "b.txt".toList .eof scenarioA 0).sink
        = some helloBytes :=
  first_match_regular_is_copied (calmWorld "" "xz" []) "out".toList "b.txt".toList .eof
    [⟨mkHeader "" .directory 0, []⟩, ⟨mkHeader "a" .directory 0, []⟩]
    ⟨mkHeader "a/b.txt" .regular 5, helloBytes⟩ []
    (by decide) (by decide) rfl rfl rfl (by intro cap hcap; cases hcap)

/-- C3 (as stated, refuted): in the archive whose directory `/b.txt` holds the
file `b.txt`, the first regular file with the target `b.txt` as its final path
segment is the third entry, yet the loop calls `Next` twice only: the run ends at
the directory `/b.txt`, whose final path segment is the target as well. -/
theorem directory_namesake_ends_run_early :
    dirNamesake
        = [⟨mkHeader "/" .directory 0, []⟩, ⟨mkHeader "/b.txt" .directory 0, []⟩]
          ++ ⟨mkHeader "/b.txt/b.txt" .regular 5, helloBytes⟩ :: []
    ∧ (∀ x ∈ [(⟨mkHeader "/" .directory 0, []⟩ : Entry), ⟨mkHeader "/b.txt" .directory 0, []⟩],
        ¬ (lastSegment x.hdr.Path = "b.txt".toList ∧ x.hdr.Typ = .regular))
    ∧ lastSegment (mkHeader "/b.txt/b.txt" .regular 5).Path = "b.txt".toList
    ∧ (mkHeader "/b.txt/b.txt" .regular 5).Typ = .regular
    ∧ (extractLoop (calmWorld "" "xz" []) "out".toList "b.txt".toList .eof
        dirNamesake 0).nextCalls = 2
    ∧ (extractLoop (calmWorld "" "xz" []) "out".toList "b.txt".toList .eof
        dirNamesake 0).nextCalls ≠ 3
    ∧ (extractLoop (calmWorld "" "xz" []) "out".toList "b.txt".toList .eof
        dirNamesake 0).exit = .fatalUnknownType (mkHeader "/b.txt" .directory 0) := by
  decide

/-- C3 (amended): when the first regular file whose final path segment is the
target is the `k`-th entry, the loop calls `Next` at most `k` times and reads at
most the declared size of that file in content bytes, and the whole run is the
same whatever follows the file in the archive.  It calls `Next` exactly `k` times
when no earlier entry has the target as its final path segment; when one has, the
run ends at the first such entry with the unknown-header-type message, after fewer
than `k` calls and with no content read. -/
theorem reads_end_at_or_before_matched_file (w : World) (outputFile target : GoString)
    (final : GoErr) (pre : List Entry) (e : Entry) (post : List Entry)
    (hpre : ∀ x ∈ pre, lastSegment x.hdr.Path = target → x.hdr.Typ ≠ .regular)
    (hm : lastSegment e.hdr.Path = target)
    (hreg : e.hdr.Typ = .regular) :
    (extractLoop w outputFile target final (pre ++ e :: post) 0).nextCalls ≤ pre.length + 1
    ∧ (extractLoop w outputFile target final (pre ++ e :: post) 0).contentRead ≤ e.hdr.Size
    ∧ (∀ (post' : List Entry) (final' : GoErr),
        extractLoop w outputFile target final' (pre ++ e :: post') 0
          = extractLoop w outputFile target final (pre ++ e :: post) 0)
    ∧ ((∀ x ∈ pre, lastSegment x.hdr.Path ≠ target) →
        (extractLoop w outputFile target final (pre ++ e :: post) 0).nextCalls
          = pre.length + 1)
    ∧ ((∃ x ∈ pre, lastSegment x.hdr.Path = target) →
        (extractLoop w outputFile target final (pre ++ e :: post) 0).nextCalls ≤ pre.length
        ∧ (extractLoop w outputFile target final (pre ++ e :: post) 0).contentRead = 0
        ∧ (extractLoop w outputFile target final (pre ++ e :: post) 0).sink = none
        ∧ ∃ h, (extractLoop w outputFile target final (pre ++ e :: post) 0).exit
              = .fatalUnknownType h
            ∧ h.Typ ≠ .regular ∧ lastSegment h.Path = target) := by
  rcases split_at_first_hit target pre with hno | ⟨p1, x, p2, hsplit, hp1, hx⟩
  · -- no earlier entry has the target as its final segment: the loop reaches `e`
    have hrun : ∀ (post' : List Entry) (final' : GoErr),
        extractLoop w outputFile target final' (pre ++ e :: post') 0
          = match w.create outputFile with
            | some err => ⟨.fatal .create err, some e.hdr, none, 0 + pre.length + 1, 0, true⟩
            | none => ⟨.wrote e.hdr, some e.hdr, some (ioCopyN w e.content e.hdr.Size).1,
                0 + pre.length + 1, (ioCopyN w e.content e.hdr.Size).2, true⟩ := by
      intro post' final'
      rw [extractLoop_skip w outputFile target final' pre (e :: post') 0 hno,
        extractLoop_regular w outputFile target final' e post' _ hm hreg]
    have hcalls : (extractLoop w outputFile target final (pre ++ e :: post) 0).nextCalls
        = pre.length + 1 := by
      rw [hrun post final]
      cases w.create outputFile <;> simp
    refine ⟨by rw [hcalls], ?_, ?_, fun _ => hcalls, ?_⟩
    · rw [hrun post final]
      cases w.create outputFile with
      | some err => exact Nat.zero_le _
      | none => exact ioCopyN_read_le w e.content e.hdr.Size
    · intro post' final'
      rw [hrun post' final', hrun post final]
    · rintro ⟨y, hy, hyt⟩
      exact absurd hyt (hno y hy)
  · -- an earlier entry `x` has the target as its final segment: the run ends there
    subst hsplit
    have hxt : x.hdr.Typ ≠ .regular := hpre x (by simp) hx
    have hrun : ∀ (post' : List Entry) (final' : GoErr),
        extractLoop w outputFile target final' ((p1 ++ x :: p2) ++ e :: post') 0
          = ⟨.fatalUnknownType x.hdr, some x.hdr, none, 0 + p1.length + 1, 0, true⟩ := by
      intro post' final'
      rw [List.append_assoc, List.cons_append,
        extractLoop_skip w outputFile target final' p1 (x :: (p2 ++ e :: post')) 0 hp1,
        extractLoop_other w outputFile target final' x (p2 ++ e :: post') _ hx hxt]
    have hlen : (p1 ++ x :: p2).length = p1.length + p2.length + 1 := by
      simp [Nat.add_assoc]
    refine ⟨?_, ?_, ?_, ?_, ?_⟩
    · rw [hrun post final, hlen]
      show 0 + p1.length + 1 ≤ p1.length + p2.length + 1 + 1
      omega
    · rw [hrun post final]
      exact Nat.zero_le _
    · intro post' final'
      rw [hrun post' final', hrun post final]
    · intro hno
      exact absurd hx (hno x (by simp))
    · intro _
      rw [hrun post final, hlen]
      refine ⟨?_, rfl, rfl, x.hdr, rfl, hxt, hx⟩
      show 0 + p1.length + 1 ≤ p1.length + p2.length + 1
      omega

/-- C3 (witness): in the archive holding `a/b.txt` as its third entry, followed by
two more files, the loop asked for `b.txt` calls `Next` three times and reads at
most five content bytes. -/
theorem reads_end_at_or_before_matched_file_witness :
    (extractLoop (calmWorld "" "xz" []) "out".toList "b.txt".toList .eof
        ([⟨mkHeader "" .directory 0, []⟩, ⟨mkHeader "a" .directory 0, []⟩]
          ++ ⟨mkHeader "a/b.txt" .regular 5, helloBytes⟩ :: twoNamesakes) 0).nextCalls = 2 + 1
    ∧ (extractLoop (calmWorld "" "xz" []) "out".toList "b.txt".toList .eof
        ([⟨mkHeader "" .directory 0, []⟩, ⟨mkHeader "a" .directory 0, []⟩]
          ++ ⟨mkHeader "a/b.txt" .regular 5, helloBytes⟩ :: twoNamesakes) 0).contentRead ≤ 5 :=
  have h := reads_end_at_or_before_matched_file (calmWorld "" "xz" []) "out".toList
    "b.txt".toList .eof [⟨mkHeader "" .directory 0, []⟩, ⟨mkHeader "a" .directory 0, []⟩]
    ⟨mkHeader "a/b.txt" .regular 5, helloBytes⟩ twoNamesakes (by decide) (by decide) rfl
  ⟨h.2.2.2.1 (by decide), h.2.1⟩

/-- C4 (the code at the failing inputs): on the empty entry stream and on a stream
of directories only, both ending in `io.EOF`, the loop does not reach
`log.Fatal("file not found")`: it panics on `hdr.Path` of the nil header that
`Next` returns with `io.EOF`. -/
theorem end_of_stream_panics :
    (extractLoop (calmWorld "" "xz" []) "out".toList "b.txt".toList .eof [] 0).exit
        = .nilDeref
    ∧ (extractLoop (calmWorld "" "xz" []) "out".toList "b.txt".toList .eof scenarioB 0).exit
        = .nilDeref
    ∧ (main (calmWorld "/nix/store/abc-b.txt" "xz" scenarioB) "job".toList "out".toList).exit
        = .nilDeref
    ∧ Exit.nilDeref ≠ Exit.fatalNotFound := by
  decide

/-- C5: when the first entry whose final path segment is the target is a symlink,
the run ends with the unknown-header-type message for that entry: not with
"file not found", with the output file untouched, no content read, and no call
of `Next` after the one that returned the symlink. -/
theorem first_match_symlink_is_fatal (w : World) (outputFile target : GoString)
    (final : GoErr) (pre : List Entry) (e : Entry) (post : List Entry)
    (hpre : ∀ x ∈ pre, lastSegment x.hdr.Path ≠ target)
    (hm : lastSegment e.hdr.Path = target)
    (hsym : e.hdr.Typ = .symlink) :
    (extractLoop w outputFile target final (pre ++ e :: post) 0).exit
        = .fatalUnknownType e.hdr
    ∧ (extractLoop w outputFile target final (pre ++ e :: post) 0).exit ≠ .fatalNotFound
    ∧ (extractLoop w outputFile target final (pre ++ e :: post) 0).sink = none
    ∧ (extractLoop w outputFile target final (pre ++ e :: post) 0).contentRead = 0
    ∧ (extractLoop w outputFile target final (pre ++ e :: post) 0).nextCalls
        = pre.length + 1 := by
  have hreg : e.hdr.Typ ≠ .regular := by rw [hsym]; decide
  rw [extractLoop_skip w outputFile target final pre (e :: post) 0 hpre,
    extractLoop_other w outputFile target final e post _ hm hreg]
  refine ⟨rfl, ?_, rfl, rfl, ?_⟩
  · simp
  · show 0 + pre.length + 1 = pre.length + 1
    omega

/-- C5 (witness): with the symlink `a/b.txt` ahead of the regular file `c/b.txt`,
the run asked for `b.txt` ends at the symlink. -/
theorem first_match_symlink_is_fatal_witness :
    (extractLoop (calmWorld "" "xz" []) "out".toList "b.txt".toList .eof symlinkFirst 0).exit
        = .fatalUnknownType (mkHeader "a/b.txt" .symlink 0)
    ∧ (extractLoop (calmWorld "" "xz" []) "out".toList "b.txt".toList .eof symlinkFirst 0).sink
        = none :=
  have h := first_match_symlink_is_fatal (calmWorld "" "xz" []) "out".toList "b.txt".toList
    .eof [⟨mkHeader "a" .directory 0, []⟩] ⟨mkHeader "a/b.txt" .symlink 0, []⟩
    [⟨mkHeader "c/b.txt" .regular 5, helloBytes⟩] (by decide) (by decide) rfl
  ⟨h.1, h.2.2.1⟩

/-! ## Claims about `main` as a whole -/

/-- The ways the loop of `main` can end: at the end of the entries, or at the
matched header with a failed `os.Create`, a copied regular file, or an entry of
another type.  The output file exists in the copied case only. -/
theorem extractLoop_cases (w : World) (outputFile target : GoString) (final : GoErr)
    (entries : List Entry) (calls : Nat) :
    ((extractLoop w outputFile target final entries calls).exit = .nilDeref
      ∧ (extractLoop w outputFile target final entries calls).sink = none)
    ∨ (∃ h err, (extractLoop w outputFile target final entries calls).exit = .fatal .create err
        ∧ (extractLoop w outputFile target final entries calls).matched = some h
        ∧ (extractLoop w outputFile target final entries calls).sink = none)
    ∨ (∃ h, (extractLoop w outputFile target final entries calls).exit = .fatalUnknownType h
        ∧ (extractLoop w outputFile target final entries calls).matched = some h
        ∧ (extractLoop w outputFile target final entries calls).sink = none)
    ∨ (∃ h, (extractLoop w outputFile target final entries calls).exit = .wrote h
        ∧ (extractLoop w outputFile target final entries calls).matched = some h
        ∧ h.Typ = .regular ∧ lastSegment h.Path = target
        ∧ 1 ≤ (extractLoop w outputFile target final entries calls).nextCalls) := by
  rcases split_at_first_hit target entries with hno | ⟨pre, e, post, hsplit, hpre, hm⟩
  · rw [extractLoop_no_hit w outputFile target final entries calls hno]
    exact Or.inl ⟨rfl, rfl⟩
  · subst hsplit
    rw [extractLoop_skip w outputFile target final pre (e :: post) calls hpre]
    by_cases hreg : e.hdr.Typ = .regular
    · rw [extractLoop_regular w outputFile target final e post _ hm hreg]
      cases w.create outputFile with
      | some err => exact Or.inr (Or.inl ⟨e.hdr, err, rfl, rfl, rfl⟩)
      | none =>
        exact Or.inr (Or.inr (Or.inr ⟨e.hdr, rfl, rfl, hreg, hm, Nat.le_add_left _ _⟩))
    · rw [extractLoop_other w outputFile target final e post _ hm hreg]
      exact Or.inr (Or.inr (Or.inl ⟨e.hdr, rfl, rfl, rfl⟩))

/-- The ways `main` can end: before the loop, with the output file untouched and
an exit that is no normal return, or in the loop, on the target `newPath`. -/
theorem main_cases (w : World) (hydraJob outputFile : GoString) :
    (∃ exit called, main w hydraJob outputFile = ⟨exit, none, none, 0, 0, called⟩
        ∧ ∀ h, exit ≠ .wrote h)
    ∨ ∃ storePath, main w hydraJob outputFile
        = extractLoop w outputFile (newPath storePath) w.final w.entries 0 := by
  unfold main
  rcases hres : getLatestOutputPath w hydraJob with ⟨storePath, _ | err⟩
  · simp only
    cases w.getNarInfo (storeHash storePath) with
    | error err => exact Or.inl ⟨_, _, rfl, by simp⟩
    | ok narinfo =>
      simp only
      cases w.getFile narinfo.URL with
      | some err => exact Or.inl ⟨_, _, rfl, by simp⟩
      | none =>
        simp only
        cases hsel : selectCodec w narinfo.Compression with
        | error exit =>
          refine Or.inl ⟨exit, false, rfl, ?_⟩
          intro h hw
          subst hw
          unfold selectCodec at hsel
          split_ifs at hsel
          · cases hx : w.xzNewReader <;> simp [hx] at hsel
          · simp at hsel
        | ok r =>
          simp only
          cases w.narNewReader with
          | some err => exact Or.inl ⟨.fatal .narReader err, true, rfl, by simp⟩
          | none => exact Or.inr ⟨storePath, rfl⟩
  · exact Or.inl ⟨_, _, rfl, by simp⟩

/-- C6 (as stated, refuted): the identity label "none" is not passed through; the
switch of `main` ends the run with "compression none not handled", as it does for
any label other than "xz" and "bzip2". -/
theorem identity_label_not_handled :
    selectCodec (calmWorld "/nix/store/abc-b.txt" "none" scenarioA) "none".toList
        = .error (.fatalCompression "none".toList)
    ∧ (main (calmWorld "/nix/store/abc-b.txt" "none" scenarioA) "job".toList
          "out".toList).exit = .fatalCompression "none".toList :=
  ⟨rfl, by decide⟩

/-- C7 (the code at the failing inputs): with the archive cut off after three of
the five bytes of `b.txt`, and with an output file that takes two bytes only, the
run still ends in the normal return after "Wrote", with three and with two bytes
in the output file: the results of `io.CopyN` and `f.Sync` are dropped. -/
theorem short_copy_reported_as_written :
    (main (calmWorld "/nix/store/abc-b.txt" "xz" truncatedFile) "job".toList
        "out".toList).exit = .wrote (mkHeader "b.txt" .regular 5)
    ∧ (main (calmWorld "/nix/store/abc-b.txt" "xz" truncatedFile) "job".toList
        "out".toList).sink = some [104, 101, 108]
    ∧ (main { calmWorld "/nix/store/abc-b.txt" "xz" scenarioA with
                writeCap := some 2, syncErr := some (.msg "input/output error".toList) }
        "job".toList "out".toList).exit = .wrote (mkHeader "a/b.txt" .regular 5)
    ∧ (main { calmWorld "/nix/store/abc-b.txt" "xz" scenarioA with
                writeCap := some 2, syncErr := some (.msg "input/output error".toList) }
        "job".toList "out".toList).sink = some [104, 101] := by
  decide

/-- C8: in every run of `main` the output file is either untouched, or a header
whose final path segment is the target and whose type is regular has been read
and the run is the normal return for it; so every run that ends otherwise
(file not found, an error of the reader, an unhandled compression, a matched
entry of another type, a panic) leaves the output file untouched. -/
theorem sink_touched_only_after_regular_match (w : World) (hydraJob outputFile : GoString) :
    ((main w hydraJob outputFile).sink = none
      ∨ ∃ h, (main w hydraJob outputFile).matched = some h ∧ h.Typ = .regular
          ∧ (main w hydraJob outputFile).exit = .wrote h
          ∧ 1 ≤ (main w hydraJob outputFile).nextCalls)
    ∧ ((∀ h, (main w hydraJob outputFile).exit ≠ .wrote h)
        → (main w hydraJob outputFile).sink = none) := by
  rcases main_cases w hydraJob outputFile with ⟨exit, called, hrun, _⟩ | ⟨storePath, hrun⟩
  · rw [hrun]
    exact ⟨Or.inl rfl, fun _ => rfl⟩
  · rw [hrun]
    rcases extractLoop_cases w outputFile (newPath storePath) w.final w.entries 0 with
      ⟨_, hs⟩ | ⟨_, _, _, _, hs⟩ | ⟨_, _, _, hs⟩ | ⟨h, he, hmatched, hreg, _, hcalls⟩
    · exact ⟨Or.inl hs, fun _ => hs⟩
    · exact ⟨Or.inl hs, fun _ => hs⟩
    · exact ⟨Or.inl hs, fun _ => hs⟩
    · exact ⟨Or.inr ⟨h, hmatched, hreg, he, hcalls⟩, fun hne => absurd he (hne h)⟩

/-- C9 (the code at the failing input): when the request succeeds and reading the
body fails, `getLatestOutputPath` returns the empty path with a nil error: it
returns `err`, nil since the request, in place of `readErr`. -/
theorem body_read_failure_returns_nil_error :
    getLatestOutputPath
        { calmWorld "/nix/store/abc-b.txt" "xz" scenarioA with
            readAll := .error (.msg "unexpected EOF".toList) } "job".toList
      = ([], none) := by
  decide

/-- C6 (amended): once the narinfo is fetched and the NAR file is opened, the run
ends with the compression-not-handled message exactly when the label is neither
"xz" nor "bzip2"; it then ends before `nar.NewReader` is called, with no call of
`Next`, no content read and the output file untouched; and for no label is the
fetched file itself handed on as the reader. -/
theorem unhandled_compression_iff (w : World) (hydraJob outputFile storePath : GoString)
    (ni : NarInfo)
    (hpath : getLatestOutputPath w hydraJob = (storePath, none))
    (hinfo : w.getNarInfo (storeHash storePath) = .ok ni)
    (hfile : w.getFile ni.URL = none) :
    ((main w hydraJob outputFile).exit = .fatalCompression ni.Compression
        ↔ ni.Compression ≠ "xz".toList ∧ ni.Compression ≠ "bzip2".toList)
    ∧ (ni.Compression ≠ "xz".toList ∧ ni.Compression ≠ "bzip2".toList →
        (main w hydraJob outputFile).narReaderCalled = false
        ∧ (main w hydraJob outputFile).nextCalls = 0
        ∧ (main w hydraJob outputFile).contentRead = 0
        ∧ (main w hydraJob outputFile).sink = none)
    ∧ selectCodec w ni.Compression ≠ .ok .file := by
  have hmain : main w hydraJob outputFile
      = match selectCodec w ni.Compression with
        | .error exit => Run.early exit
        | .ok _r =>
          match w.narNewReader with
          | some err => { Run.early (.fatal .narReader err) with narReaderCalled := true }
          | none => extractLoop w outputFile (newPath storePath) w.final w.entries 0 := by
    unfold main
    rw [hpath]
    simp only [hinfo, hfile]
  have hloop : (extractLoop w outputFile (newPath storePath) w.final w.entries 0).exit
      ≠ .fatalCompression ni.Compression := by
    intro hex
    rcases extractLoop_cases w outputFile (newPath storePath) w.final w.entries 0 with
      ⟨he, _⟩ | ⟨_, _, he, _⟩ | ⟨_, he, _⟩ | ⟨_, he, _⟩ <;>
    · rw [he] at hex
      cases hex
  have hafter : (match w.narNewReader with
        | some err => { Run.early (.fatal .narReader err) with narReaderCalled := true }
        | none => extractLoop w outputFile (newPath storePath) w.final w.entries 0).exit
      ≠ .fatalCompression ni.Compression := by
    cases w.narNewReader with
    | some err => simp [Run.early]
    | none => exact hloop
  by_cases hxz : ni.Compression = "xz".toList
  · have hsel : selectCodec w ni.Compression
        = match w.xzNewReader with
          | some err => .error (.fatal .xz err)
          | none => .ok .xz := by
      unfold selectCodec
      rw [if_pos hxz]
    refine ⟨⟨?_, fun h => absurd hxz h.1⟩, fun h => absurd hxz h.1, ?_⟩
    · intro hex
      rw [hmain, hsel] at hex
      cases hx : w.xzNewReader with
      | some err => simp [hx, Run.early] at hex
      | none =>
        rw [hx] at hex
        exact absurd hex hafter
    · rw [hsel]
      cases w.xzNewReader <;> simp
  · by_cases hbz : ni.Compression = "bzip2".toList
    · have hsel : selectCodec w ni.Compression = .ok .bzip2 := by
        unfold selectCodec
        rw [if_neg hxz, if_pos hbz]
      refine ⟨⟨?_, fun h => absurd hbz h.2⟩, fun h => absurd hbz h.2, ?_⟩
      · intro hex
        rw [hmain, hsel] at hex
        exact absurd hex hafter
      · rw [hsel]
        simp
    · have hsel : selectCodec w ni.Compression = .error (.fatalCompression ni.Compression) := by
        unfold selectCodec
        rw [if_neg hxz, if_neg hbz]
      have hrun : main w hydraJob outputFile = Run.early (.fatalCompression ni.Compression) := by
        rw [hmain, hsel]
      refine ⟨⟨fun _ => ⟨hxz, hbz⟩, fun _ => ?_⟩, fun _ => ?_, ?_⟩
      · rw [hrun]
        rfl
      · rw [hrun]
        exact ⟨rfl, rfl, rfl, rfl⟩
      · rw [hsel]
        simp

/-- C6 (witness): with the label "none" the run ends with the
compression-not-handled message before `nar.NewReader` is called. -/
theorem unhandled_compression_iff_witness :
    (main (calmWorld "/nix/store/abc-b.txt" "none" scenarioA) "job".toList
        "out".toList).narReaderCalled = false
    ∧ (main (calmWorld "/nix/store/abc-b.txt" "none" scenarioA) "job".toList
        "out".toList).nextCalls = 0 :=
  have h := unhandled_compression_iff (calmWorld "/nix/store/abc-b.txt" "none" scenarioA)
    "job".toList "out".toList "/nix/store/abc-b.txt".toList
    ⟨"nar/0.nar".toList, "none".toList⟩ (by decide) rfl rfl
  have hlabel : ("none".toList ≠ "xz".toList) ∧ ("none".toList ≠ "bzip2".toList) := by decide
  ⟨(h.2.1 hlabel).1, (h.2.1 hlabel).2.1⟩

/-! ## The store hash and the target name -/

/-- The result of `strings.Split` has a first piece. -/
theorem stringsSplit_ne_nil (sep : Char) (s : GoString) : stringsSplit sep s ≠ [] := by
  cases s with
  | nil => simp [stringsSplit]
  | cons c cs =>
    unfold stringsSplit
    split_ifs
    · simp
    · cases stringsSplit sep cs <;> simp

/-- Joining the pieces of `strings.Split` with the separator gives the string back. -/
theorem stringsJoin_stringsSplit (sep : Char) (s : GoString) :
    stringsJoin (stringsSplit sep s) [sep] = s := by
  induction s with
  | nil => simp [stringsSplit, stringsJoin]
  | cons c cs ih =>
    unfold stringsSplit
    cases hsplit : stringsSplit sep cs with
    | nil => exact absurd hsplit (stringsSplit_ne_nil sep cs)
    | cons piece pieces =>
      rw [hsplit] at ih
      split_ifs with hc
      · simp only [stringsJoin, ih, hc]
        rfl
      · cases pieces with
        | nil =>
          simp only [stringsJoin] at ih ⊢
          rw [ih]
        | cons q qs =>
          simp only [stringsJoin] at ih ⊢
          rw [← ih]
          simp

/-- The first piece of `strings.Split` is the text before the first separator. -/
theorem stringsSplit_headD (sep : Char) (s : GoString) :
    (stringsSplit sep s).headD [] = s.takeWhile (fun ch => ch != sep) := by
  induction s with
  | nil => simp [stringsSplit]
  | cons c cs ih =>
    unfold stringsSplit
    cases hsplit : stringsSplit sep cs with
    | nil => exact absurd hsplit (stringsSplit_ne_nil sep cs)
    | cons piece pieces =>
      rw [hsplit] at ih
      split_ifs with hc
      · simp [hc]
      · have hne : (c != sep) = true := by simpa using hc
        simp only [List.headD_cons] at ih ⊢
        rw [List.takeWhile_cons, hne, ih]
        rfl

/-- The pieces of `strings.Split` after the first, joined with the separator, are
the text after the first separator. -/
theorem stringsJoin_drop_stringsSplit (sep : Char) (s : GoString) :
    stringsJoin ((stringsSplit sep s).drop 1) [sep]
      = (s.dropWhile (fun ch => ch != sep)).drop 1 := by
  induction s with
  | nil => simp [stringsSplit, stringsJoin]
  | cons c cs ih =>
    unfold stringsSplit
    cases hsplit : stringsSplit sep cs with
    | nil => exact absurd hsplit (stringsSplit_ne_nil sep cs)
    | cons piece pieces =>
      rw [hsplit] at ih
      split_ifs with hc
      · have hjoin := stringsJoin_stringsSplit sep cs
        rw [hsplit] at hjoin
        simp [hc, hjoin]
      · have hne : (c != sep) = true := by simpa using hc
        rw [List.dropWhile_cons, hne]
        simpa using ih

/-- A string with a separator in it is the text before the first separator, the
separator, and the text after it. -/
theorem takeWhile_sep_dropWhile (sep : Char) (s : GoString) (hmem : sep ∈ s) :
    s.takeWhile (fun ch => ch != sep) ++ sep :: (s.dropWhile (fun ch => ch != sep)).drop 1
      = s := by
  induction s with
  | nil => simp at hmem
  | cons c cs ih =>
    by_cases hc : c = sep
    · simp [hc]
    · have hne : (c != sep) = true := by simpa using hc
      have hcs : sep ∈ cs := by
        rcases List.mem_cons.mp hmem with h | h
        · exact absurd h.symm hc
        · exact h
      rw [List.takeWhile_cons, List.dropWhile_cons, hne]
      simp only [if_true, List.cons_append]
      rw [ih hcs]

/-- A string without the separator has nothing taken off by `takeWhile` and
nothing left by `dropWhile`. -/
theorem takeWhile_dropWhile_of_not_mem (sep : Char) (s : GoString) (hmem : sep ∉ s) :
    s.takeWhile (fun ch => ch != sep) = s ∧ s.dropWhile (fun ch => ch != sep) = [] := by
  induction s with
  | nil => simp
  | cons c cs ih =>
    have hc : c ≠ sep := fun h => hmem (h ▸ List.mem_cons_self _ _)
    have hcs : sep ∉ cs := fun h => hmem (List.mem_cons_of_mem _ h)
    have hne : (c != sep) = true := by simpa using hc
    rw [List.takeWhile_cons, List.dropWhile_cons, hne]
    simp only [if_true]
    exact ⟨by rw [(ih hcs).1], (ih hcs).2⟩

/-- A string without the separator is the only piece of its `strings.Split`. -/
theorem stringsSplit_of_not_mem (sep : Char) (s : GoString) (hmem : sep ∉ s) :
    stringsSplit sep s = [s] := by
  induction s with
  | nil => simp [stringsSplit]
  | cons c cs ih =>
    have hc : c ≠ sep := fun h => hmem (h ▸ List.mem_cons_self _ _)
    have hcs : sep ∉ cs := fun h => hmem (List.mem_cons_of_mem _ h)
    unfold stringsSplit
    rw [if_neg hc, ih hcs]

/-- C10 (as stated, refuted): for the store path `/nix/store/abc-foo/def-bar` the
final component is `def-bar`, yet the store hash is `abc` and the target is `foo`,
those of the first component; and for `/nix/store/hello`, a component with no `-`,
the store hash is `hello` and the target is empty, so hash, `-` and target do not
make up the component. -/
theorem target_not_from_final_component :
    (components "/nix/store/abc-foo/def-bar".toList).getLastD [] = "def-bar".toList
    ∧ storeHash "/nix/store/abc-foo/def-bar".toList = "abc".toList
    ∧ newPath "/nix/store/abc-foo/def-bar".toList = "foo".toList
    ∧ storeHash "/nix/store/abc-foo/def-bar".toList ++ '-'
          :: newPath "/nix/store/abc-foo/def-bar".toList
        ≠ (components "/nix/store/abc-foo/def-bar".toList).getLastD []
    ∧ (components "/nix/store/hello".toList).getLastD [] = "hello".toList
    ∧ storeHash "/nix/store/hello".toList ++ '-' :: newPath "/nix/store/hello".toList
        ≠ (components "/nix/store/hello".toList).getLastD [] := by
  decide

/-- C10 (amended): for every store path the store hash and the target come from
the first component of the path left after the mount path and the trailing
slashes are removed: the hash is the text before the first `-` of that component
and the target the text after it; when the component has a `-`, hash, `-` and
target make up the component, and when it has none the hash is the whole
component and the target is empty.  The first component is the final one when the
path left has no `/`. -/
theorem hash_and_target_from_first_component (storePath : GoString) :
    (components storePath).head? = some ((components storePath).headD [])
    ∧ storeHash storePath
        = ((components storePath).headD []).takeWhile (fun ch => ch != '-')
    ∧ newPath storePath
        = (((components storePath).headD []).dropWhile (fun ch => ch != '-')).drop 1
    ∧ ('-' ∈ (components storePath).headD [] →
        storeHash storePath ++ '-' :: newPath storePath = (components storePath).headD [])
    ∧ ('-' ∉ (components storePath).headD [] →
        storeHash storePath = (components storePath).headD [] ∧ newPath storePath = [])
    ∧ ('/' ∉ stringsTrimRight (stringsTrimPrefix storePath storePrefix) '/' →
        components storePath = [stringsTrimRight (stringsTrimPrefix storePath storePrefix) '/']
        ∧ (components storePath).getLastD [] = (components storePath).headD []) := by
  have hhash : storeHash storePath
      = ((components storePath).headD []).takeWhile (fun ch => ch != '-') :=
    stringsSplit_headD '-' _
  have htarget : newPath storePath
      = (((components storePath).headD []).dropWhile (fun ch => ch != '-')).drop 1 :=
    stringsJoin_drop_stringsSplit '-' _
  refine ⟨?_, hhash, htarget, ?_, ?_, ?_⟩
  · cases hc : components storePath with
    | nil => exact absurd hc (stringsSplit_ne_nil '/' _)
    | cons c cs => rfl
  · intro hmem
    rw [hhash, htarget]
    exact takeWhile_sep_dropWhile '-' _ hmem
  · intro hmem
    rw [hhash, htarget]
    have h := takeWhile_dropWhile_of_not_mem '-' _ hmem
    exact ⟨h.1, by rw [h.2]; rfl⟩
  · intro hmem
    have hc : components storePath
        = [stringsTrimRight (stringsTrimPrefix storePath storePrefix) '/'] :=
      stringsSplit_of_not_mem '/' _ hmem
    exact ⟨hc, by rw [hc]; rfl⟩

end NixLetsGo
